import Mathlib

/-!
Shallow embedding of the functional-depth / outlier-detection engine and the
basis-smoothing least-squares engine of the scikit-fda excerpt, together with
theorems settling the frozen claims about them.

Conventions: machine floats are embedded as exact rationals (or as elements of
the field of rationals adjoined the square root of two where basis values
require it); numpy arrays become lists or functions over finite index types;
fallible Python code returns Option or Except values, with an enumeration of
the Python exception classes that matter to the claims.
-/

namespace SkfdaSpec

/-- Trapezoid rule integral of sampled values over a grid: the sum over
consecutive grid intervals of interval length times the mean of the two
endpoint values.  This realizes the trapezoid-style integration weights
(endpoints half-weighted) required by the specification for depth and
epigraph-index integrals. -/
def trapIntegral (ts vs : List ℚ) : ℚ :=
  (List.zipWith (fun (a b : ℚ × ℚ) => (b.1 - a.1) * (a.2 + b.2) / 2)
    (ts.zip vs) (ts.zip vs).tail).sum

/-- Discretized functional data on a shared one-dimensional grid: the grid
points, and one row of sampled values per function in the batch.  This embeds
the FDataGrid representation restricted to one domain and one codomain
dimension, which is all the claims use. -/
structure FDataGrid where
  grid_points : List ℚ
  data_matrix : List (List ℚ)
  deriving DecidableEq, Repr

/-- Number of functions in the batch (the first axis of the data matrix). -/
def FDataGrid.n_samples (X : FDataGrid) : ℕ := X.data_matrix.length

/-- Length of the domain interval, last grid point minus first. -/
def FDataGrid.domainLen (X : FDataGrid) : ℚ :=
  X.grid_points.getLast?.getD 0 - X.grid_points.head?.getD 0

/-- Fraction weight of the domain where the first function lies at or below
the second, measured with trapezoid weights over the grid. -/
def belowMeasure (ts f g : List ℚ) : ℚ :=
  trapIntegral ts (List.zipWith (fun a b => if a ≤ b then (1 : ℚ) else 0) f g)

/-- Modelled from the spec: the modified epigraph index
(skfda.exploratory.stats.modified_epigraph_index is not part of the provided
sources).  Per the specification it is, for each function, the fraction of the
domain measure in which the functions of the batch lie at or above it,
averaged over the batch, using the true domain-point spacing as integration
weights (trapezoid-style weights).  The term for the function itself is
included, so values lie in the interval from 1/N to 1. -/
def modified_epigraph_index (X : FDataGrid) : List ℚ :=
  X.data_matrix.map (fun f =>
    ((X.data_matrix.map (fun g => belowMeasure X.grid_points f g)).sum)
      / ((X.n_samples : ℚ) * X.domainLen))

/-- All unordered pairs of elements of a list, each pair taken in list order. -/
def listPairs : List α → List (α × α)
  | [] => []
  | x :: xs => xs.map (fun y => (x, y)) ++ listPairs xs

/-- Fraction weight of the domain where a function lies inside the band of a
pair of functions, measured with trapezoid weights over the grid. -/
def inBandMeasure (ts f g h : List ℚ) : ℚ :=
  trapIntegral ts
    (List.zipWith (fun v gh =>
      if min gh.1 gh.2 ≤ v ∧ v ≤ max gh.1 gh.2 then (1 : ℚ) else 0)
      f (g.zip h))

/-- Modelled from the spec: the modified band depth
(skfda.exploratory.depth.ModifiedBandDepth is not part of the provided
sources).  Per the specification it is, for each function of the batch, the
fraction of the domain measure in which the function lies within the band
formed by every pair of functions of the batch, averaged over all pairs and
over the domain measure with trapezoid weights. -/
def ModifiedBandDepth (X : FDataGrid) : List ℚ :=
  let npairs : ℚ := (X.n_samples : ℚ) * ((X.n_samples : ℚ) - 1) / 2
  X.data_matrix.map (fun f =>
    ((listPairs X.data_matrix).map
      (fun gh => inBandMeasure X.grid_points f gh.1 gh.2)).sum
      / (npairs * X.domainLen))

/-- Insertion of a rational into a sorted list, keeping it sorted. -/
def insertSorted (x : ℚ) : List ℚ → List ℚ
  | [] => [x]
  | y :: ys => if x ≤ y then x :: y :: ys else y :: insertSorted x ys

/-- Sorting by repeated insertion; this embeds numpy sorting of the data
(the sorted rearrangement of a list of rationals is unique, so the choice of
sorting algorithm is immaterial). -/
def sortQ (l : List ℚ) : List ℚ := l.foldr insertSorted []

/-- Linear-interpolation percentile exactly as numpy computes it: sort the
data, take the fractional position q/100 times (n-1), and interpolate
linearly between the two neighbouring order statistics. -/
def percentile (xs : List ℚ) (q : ℚ) : ℚ :=
  let s := sortQ xs
  let pos := q / 100 * ((xs.length : ℚ) - 1)
  let lo := (⌊pos⌋).toNat
  match s.drop lo with
  | [] => 0
  | [a] => a
  | a :: b :: _ => a + (pos - (lo : ℚ)) * (b - a)

/-- Fitted state of the outliergram detector: the attributes set by fit. -/
structure OutliergramFitted where
  mbd_ : List ℚ
  mei_ : List ℚ
  parabola_ : List ℚ
  distances_ : List ℚ
  max_inlier_distance_ : ℚ
  deriving DecidableEq, Repr

namespace OutliergramOutlierDetector

/-- Default value of the factor parameter of the outliergram detector. -/
def defaultFactor : ℚ := 3/2

/-- Parabola in which pairs (mei, mbd) should lie, with the coefficients
computed from the batch size exactly as in the source. -/
def compute_parabola (n_samples : ℕ) (mei : List ℚ) : List ℚ :=
  let a_0 : ℚ := -2 / ((n_samples : ℚ) * ((n_samples : ℚ) - 1))
  let a_1 : ℚ := 2 * ((n_samples : ℚ) + 1) / ((n_samples : ℚ) - 1)
  mei.map (fun m => a_0 + a_1 * m + (n_samples : ℚ) ^ 2 * a_0 * m ^ 2)

/-- Distance above which data are considered outliers: third quartile plus
factor times the interquartile range of the distances. -/
def compute_maximum_inlier_distance (factor : ℚ) (distances : List ℚ) : ℚ :=
  let first_quartile := percentile distances 25
  let third_quartile := percentile distances 75
  let iqr := third_quartile - first_quartile
  third_quartile + factor * iqr

/-- Fit of the outliergram detector: modified band depth, modified epigraph
index, the parabola, the per-function distances and the inlier threshold. -/
def fit (factor : ℚ) (X : FDataGrid) : OutliergramFitted :=
  let mbd := ModifiedBandDepth X
  let mei := modified_epigraph_index X
  let parabola := compute_parabola X.n_samples mei
  let distances := List.zipWith (fun p b => p - b) parabola mbd
  { mbd_ := mbd
    mei_ := mei
    parabola_ := parabola
    distances_ := distances
    max_inlier_distance_ := compute_maximum_inlier_distance factor distances }

/-- Prediction step of fit_predict: the boolean outlier mask is turned into
labels by the same arithmetic the source uses on the numpy boolean array,
namely negated mask plus mask times minus one. -/
def fit_predict (factor : ℚ) (X : FDataGrid) : List ℤ :=
  let st := fit factor X
  st.distances_.map (fun d =>
    let outlier := st.max_inlier_distance_ < d
    (if outlier then 0 else 1) + (if outlier then 1 else 0) * (-1))

end OutliergramOutlierDetector

/-- Grid of the docstring example of the outlier module. -/
def exampleGrid : List ℚ := [0, 2, 4, 6, 8, 10]

/-- Data matrix of the docstring example of the outlier module. -/
def exampleDataMatrix : List (List ℚ) :=
  [[1, 1, 2, 3, 5/2, 2],
   [1/2, 1/2, 1, 2, 3/2, 1],
   [-1, -1, -1/2, 1, 1, 1/2],
   [-1/2, -1/2, -1/2, -1, -1, -1]]

/-- The functional data batch of the docstring example. -/
def exampleFD : FDataGrid :=
  { grid_points := exampleGrid, data_matrix := exampleDataMatrix }

/-- Specification of the quantities computed by the outliergram fit and of the
labels returned by fit_predict, exactly as claimed: depth and epigraph index
of the batch, the parabola with coefficients determined by the batch size, the
per-function distances, the quartile-based inlier threshold, the outlier
labelling rule, and the default factor value. -/
def outliergramFitSpec (factor : ℚ) (X : FDataGrid) : Prop :=
  let N : ℚ := (X.n_samples : ℚ)
  let st := OutliergramOutlierDetector.fit factor X
  st.mbd_ = ModifiedBandDepth X
  ∧ st.mei_ = modified_epigraph_index X
  ∧ st.parabola_ = st.mei_.map (fun m =>
      (-2 / (N * (N - 1))) + (2 * (N + 1) / (N - 1)) * m
        + N ^ 2 * (-2 / (N * (N - 1))) * m ^ 2)
  ∧ st.distances_ = List.zipWith (fun p b => p - b) st.parabola_ st.mbd_
  ∧ st.max_inlier_distance_ =
      percentile st.distances_ 75
        + factor * (percentile st.distances_ 75 - percentile st.distances_ 25)
  ∧ OutliergramOutlierDetector.fit_predict factor X =
      st.distances_.map (fun d =>
        if st.max_inlier_distance_ < d then (-1 : ℤ) else 1)
  ∧ OutliergramOutlierDetector.defaultFactor = 3 / 2

/-! Embedding of the RKHS variable selector.  Trajectories are a matrix over
the rationals with one row per sample and one column per domain point, class
labels are rationals.  The least-squares score used from the second greedy
step onward calls numpy lstsq, whose exact semantics (minimum-norm least
squares computed by floating SVD) has no finite embedding over the rationals;
the greedy search is therefore parameterized by that step-score function, and
the theorems below quantify over it, since none of the claims depends on its
values. -/

/-- Python exception classes distinguished by the claims. -/
inductive PyError where
  | valueError
  | assertionError
  | notFittedError
  | attributeError
  deriving DecidableEq, Repr

/-- Left fold keeping the current best element, replacing it only on a
strictly larger value; combined with listArgmax this reproduces numpy argmax,
which returns the first position attaining the maximum. -/
def argmaxAux (f : α → ℚ) (best : α) : List α → α
  | [] => best
  | x :: xs => argmaxAux f (if f best < f x then x else best) xs

/-- First-occurrence argmax of a function over a list, none on the empty
list; embeds numpy argmax over an array indexed by the list positions. -/
def listArgmax (f : α → ℚ) : List α → Option α
  | [] => none
  | x :: xs => some (argmaxAux f x xs)

section Rkvs

variable {n p : ℕ}

/-- Number of samples carrying the given class label, as a rational (the row
count of the boolean row selection of the source). -/
def classCount (Y : Fin n → ℚ) (label : ℚ) : ℚ :=
  Finset.univ.sum (fun i => if Y i = label then (1 : ℚ) else 0)

/-- Mean of the trajectories of the class with the given label at one domain
point (mean of the rows selected by the label, as numpy mean over axis 0). -/
def classMean (X : Fin n → Fin p → ℚ) (Y : Fin n → ℚ) (label : ℚ) (t : Fin p) : ℚ :=
  Finset.univ.sum (fun i => if Y i = label then X i t else 0) / classCount Y label

/-- Difference of the class-conditional means at each domain point, class 1
minus class 0, as computed by the source. -/
def rkvsMeans (X : Fin n → Fin p → ℚ) (Y : Fin n → ℚ) (t : Fin p) : ℚ :=
  classMean X Y 1 t - classMean X Y 0 t

/-- Diagonal entry of the biased covariance matrix of one class (numpy cov
with bias, normalizing by the number of rows of the class). -/
def classVarDiag (X : Fin n → Fin p → ℚ) (Y : Fin n → ℚ) (label : ℚ) (t : Fin p) : ℚ :=
  Finset.univ.sum
    (fun i => if Y i = label then (X i t - classMean X Y label t) ^ 2 else 0)
    / classCount Y label

/-- Diagonal entry of the proportion-weighted pooled covariance: class-1
proportion times the class-1 variance plus class-0 proportion times the
class-0 variance, the class-1 count being the sum of the label values as in
the source. -/
def pooledVarDiag (X : Fin n → Fin p → ℚ) (Y : Fin n → ℚ) (t : Fin p) : ℚ :=
  let class_1_count : ℚ := Finset.univ.sum Y
  let class_0_count : ℚ := (n : ℚ) - class_1_count
  (class_1_count / (n : ℚ)) * classVarDiag X Y 1 t
    + (class_0_count / (n : ℚ)) * classVarDiag X Y 0 t

/-- Squared univariate separation score: the square of the quotient of the
absolute mean difference by the standard deviation.  The source compares the
quotients themselves; squaring preserves the comparisons whenever the
variances are positive, which the first-selection theorem proves against the
square-root form, and keeps the selection computable over the rationals. -/
def muSigmaSq (X : Fin n → Fin p → ℚ) (Y : Fin n → ℚ) (t : Fin p) : ℚ :=
  (rkvsMeans X Y t) ^ 2 / pooledVarDiag X Y t

/-- Greedy selection loop of the source: while steps remain, evaluate the
step score of every remaining candidate given the current selection, append
the first-occurrence argmax to the selection and delete it from the pool. -/
def greedyLoop (stepScore : List (Fin p) → Fin p → ℚ)
    (selected pool : List (Fin p)) : ℕ → List (Fin p)
  | 0 => selected
  | m + 1 =>
    match listArgmax (stepScore selected) pool with
    | none => selected
    | some c => greedyLoop stepScore (selected ++ [c]) (pool.erase c) m

/-- The greedy RKHS variable selection: the asserts on the number of
components, the first selection by univariate score over all points, then the
greedy loop over the remaining points; none models an assertion failure.  The
incremental score values also returned by the source are not modelled, since
no claim depends on them. -/
def rkhs_vs (stepScore : List (Fin p) → Fin p → ℚ)
    (X : Fin n → Fin p → ℚ) (Y : Fin n → ℚ) (n_components : ℕ) :
    Option (List (Fin p)) :=
  if 1 ≤ n_components ∧ n_components ≤ p then
    match listArgmax (muSigmaSq X Y) (List.finRange p) with
    | none => none
    | some i0 =>
        some (greedyLoop stepScore [i0] ((List.finRange p).erase i0)
          (n_components - 1))
  else none

/-- Number of distinct labels, as numpy unique computes it. -/
def distinctLabelCount (Y : Fin n → ℚ) : ℕ := (Finset.univ.image Y).card

/-- Fitted state of the RKHS variable selector: the recorded number of domain
points and the ordered selected features. -/
structure RKVSFitted (p : ℕ) where
  features_shape_ : ℕ
  features_ : List (Fin p)
  deriving DecidableEq, Repr

/-- Fit of the RKHS variable selector: first the check that there are exactly
two distinct labels (raising a value error otherwise, before any selection
computation), then the greedy selection, whose assert failures surface as
assertion errors; on success the fitted attributes are recorded. -/
def RKHSVariableSelection.fit (stepScore : List (Fin p) → Fin p → ℚ)
    (X : Fin n → Fin p → ℚ) (Y : Fin n → ℚ) (n_components : ℕ) :
    Except PyError (RKVSFitted p) :=
  if distinctLabelCount Y ≠ 2 then .error .valueError
  else
    match rkhs_vs stepScore X Y n_components with
    | none => .error .assertionError
    | some sel => .ok { features_shape_ := p, features_ := sel }

/-- Transform of the RKHS variable selector: the scikit-learn fitted check
first (a not-fitted error when fit has not run, modelled by the state being
none), then indexing the new data at the fitted features.  The runtime check
that the new data has features_shape_ domain points is rendered by the shared
index type of the new matrix and the stored features. -/
def RKHSVariableSelection.transform {m : ℕ} (fitted : Option (RKVSFitted p))
    (Xnew : Fin m → Fin p → ℚ) : Except PyError (List (Fin m → ℚ)) :=
  match fitted with
  | none => .error .notFittedError
  | some st => .ok (st.features_.map (fun t i => Xnew i t))

end Rkvs

/-- Witness trajectories for the selector claims: four samples on one domain
point, with values 0, 2, 0, 2. -/
def rkvsWitnessX : Fin 4 → Fin 1 → ℚ :=
  fun i _ => ![0, 2, 0, 2] i

/-- Witness labels for the selector claims: 0, 0, 1, 1. -/
def rkvsWitnessY : Fin 4 → ℚ := ![0, 0, 1, 1]

/-! Embedding of the grid check of the basis smoother transform, and of the
attribute lookup of predict on the outliergram detector. -/

/-- The assert of the basis smoother transform: dimension by dimension (with
python zip truncation semantics), the input points recorded at fit must be
array-equal to the input points of the data being transformed. -/
def transformGridCheck (fitted xnew : List (List ℚ)) : Bool :=
  (fitted.zip xnew).all (fun ab => decide (ab.1 = ab.2))

/-- Transform of the basis smoother, abstracted over the smoothing payload
(the hat-matrix application or basis projection, studied separately on the
concrete example): the assert on the input points fails with an assertion
error when the grids differ, and otherwise the smoothing runs. -/
def BasisSmoother.transform {α β : Type} (smooth : α → β)
    (input_points_ : List (List ℚ)) (xPoints : List (List ℚ)) (X : α) :
    Except PyError β :=
  if transformGridCheck input_points_ xPoints then .ok (smooth X)
  else .error .assertionError

/-- Input points of a one-dimensional grid batch: the single grid-point list
per domain dimension, as recorded by the fit of the basis smoother. -/
def BasisSmoother.inputPointsOf (X : FDataGrid) : List (List ℚ) :=
  [X.grid_points]

/-- Calling predict on the outliergram detector: the class defines only fit
and fit_predict, and neither the scikit-learn base estimator nor the outlier
mixin defines predict, so attribute lookup fails with the attribute error
whatever the fitted state is. -/
def OutliergramOutlierDetector.predict (_state : Option OutliergramFitted)
    (_X : FDataGrid) : Except PyError (List ℤ) :=
  .error .attributeError

/-! Embedding of the geometric median, modelled from the spec
(skfda.exploratory.stats.geometric_median is not part of the provided
sources; only its tests are). -/

/-- Componentwise sum of two vectors. -/
def vecAdd (a b : List ℚ) : List ℚ := List.zipWith (fun x y => x + y) a b

/-- Scalar multiple of a vector. -/
def vecSmul (c : ℚ) (v : List ℚ) : List ℚ := v.map (fun x => c * x)

/-- Zero vector of a given length. -/
def vecZero (k : ℕ) : List ℚ := List.replicate k 0

/-- Coordinate-wise mean of the samples, the default initial point of the
geometric median iteration per the spec. -/
def coordMean (samples : List (List ℚ)) : List ℚ :=
  vecSmul (1 / (samples.length : ℚ))
    (samples.foldr vecAdd (vecZero ((samples.head?.getD []).length)))

/-- Modelled from the spec: one step of the Weiszfeld-type iterative
reweighting scheme of the geometric median.  The candidate center is the
weighted average of the samples with weights one over the distance to the
current center under the chosen metric, samples at distance zero being
excluded from the reweighting denominator. -/
def weiszfeldStep (metric : List ℚ → List ℚ → ℚ)
    (samples : List (List ℚ)) (c : List ℚ) : List ℚ :=
  let ws := samples.map (fun x =>
    let d := metric x c
    if d = 0 then 0 else 1 / d)
  let total := ws.sum
  if total = 0 then c
  else
    vecSmul (1 / total)
      ((samples.zip ws).foldr (fun xw acc => vecAdd (vecSmul xw.2 xw.1) acc)
        (vecZero c.length))

/-- Modelled from the spec: the geometric median of a plain multivariate
matrix (rows as samples), iterating the Weiszfeld step from the
coordinate-wise mean until the movement between iterations falls below the
tolerance relative to the size of the iterate, or the maximum iteration
count is reached. -/
def geometric_median (metric : List ℚ → List ℚ → ℚ)
    (samples : List (List ℚ)) (tol : ℚ) : ℕ → List ℚ → List ℚ
  | 0, c => c
  | fuel + 1, c =>
      let c2 := weiszfeldStep metric samples c
      if metric c2 c ≤ tol * metric c2 (vecZero c2.length) then c2
      else geometric_median metric samples tol fuel c2

/-- Modelled from the spec: the geometric median of a functional batch is
computed by reducing the batch to its matrix of values, applying the same
numeric routine, and re-wrapping the result as a one-sample functional datum
on the same grid. -/
def geometric_median_fd (metric : List ℚ → List ℚ → ℚ) (X : FDataGrid)
    (tol : ℚ) (maxIter : ℕ) : FDataGrid :=
  { grid_points := X.grid_points
    data_matrix :=
      [geometric_median metric X.data_matrix tol maxIter
        (coordMean X.data_matrix)] }

/-! Embedding of the basis smoother least-squares engine.  The Fourier basis
of the docstring example takes values in the field of rationals adjoined the
square root of two, so the whole computation is exact. -/

/-- Elements a + b sqrt 2 of the quadratic field obtained by adjoining the
square root of two to the rationals, represented by the pair (a, b). -/
@[ext]
structure Qsqrt2 where
  a : ℚ
  b : ℚ
  deriving DecidableEq, Repr

namespace Qsqrt2

instance : Zero Qsqrt2 := ⟨⟨0, 0⟩⟩

instance : One Qsqrt2 := ⟨⟨1, 0⟩⟩

instance : Add Qsqrt2 := ⟨fun x y => ⟨x.a + y.a, x.b + y.b⟩⟩

instance : Neg Qsqrt2 := ⟨fun x => ⟨-x.a, -x.b⟩⟩

instance : Mul Qsqrt2 :=
  ⟨fun x y => ⟨x.a * y.a + 2 * (x.b * y.b), x.a * y.b + x.b * y.a⟩⟩

instance : Inv Qsqrt2 :=
  ⟨fun x => ⟨x.a / (x.a ^ 2 - 2 * x.b ^ 2), -x.b / (x.a ^ 2 - 2 * x.b ^ 2)⟩⟩

instance : CommRing Qsqrt2 where
  nsmul := nsmulRec
  zsmul := zsmulRec
  natCast n := ⟨(n : ℚ), 0⟩
  natCast_zero := by
    ext
    · show ((0 : ℕ) : ℚ) = 0; norm_num
    · rfl
  natCast_succ n := by
    ext
    · show ((n + 1 : ℕ) : ℚ) = (n : ℚ) + 1; push_cast; ring
    · show (0 : ℚ) = 0 + 0; norm_num
  add_assoc x y z := by
    ext
    · show x.a + y.a + z.a = x.a + (y.a + z.a); ring
    · show x.b + y.b + z.b = x.b + (y.b + z.b); ring
  zero_add x := by
    ext
    · show 0 + x.a = x.a; ring
    · show 0 + x.b = x.b; ring
  add_zero x := by
    ext
    · show x.a + 0 = x.a; ring
    · show x.b + 0 = x.b; ring
  add_comm x y := by
    ext
    · show x.a + y.a = y.a + x.a; ring
    · show x.b + y.b = y.b + x.b; ring
  left_distrib x y z := by
    ext
    · show x.a * (y.a + z.a) + 2 * (x.b * (y.b + z.b))
        = x.a * y.a + 2 * (x.b * y.b) + (x.a * z.a + 2 * (x.b * z.b))
      ring
    · show x.a * (y.b + z.b) + x.b * (y.a + z.a)
        = x.a * y.b + x.b * y.a + (x.a * z.b + x.b * z.a)
      ring
  right_distrib x y z := by
    ext
    · show (x.a + y.a) * z.a + 2 * ((x.b + y.b) * z.b)
        = x.a * z.a + 2 * (x.b * z.b) + (y.a * z.a + 2 * (y.b * z.b))
      ring
    · show (x.a + y.a) * z.b + (x.b + y.b) * z.a
        = x.a * z.b + x.b * z.a + (y.a * z.b + y.b * z.a)
      ring
  zero_mul x := by
    ext
    · show 0 * x.a + 2 * (0 * x.b) = 0; ring
    · show 0 * x.b + 0 * x.a = 0; ring
  mul_zero x := by
    ext
    · show x.a * 0 + 2 * (x.b * 0) = 0; ring
    · show x.a * 0 + x.b * 0 = 0; ring
  mul_assoc x y z := by
    ext
    · show (x.a * y.a + 2 * (x.b * y.b)) * z.a
          + 2 * ((x.a * y.b + x.b * y.a) * z.b)
        = x.a * (y.a * z.a + 2 * (y.b * z.b))
          + 2 * (x.b * (y.a * z.b + y.b * z.a))
      ring
    · show (x.a * y.a + 2 * (x.b * y.b)) * z.b + (x.a * y.b + x.b * y.a) * z.a
        = x.a * (y.a * z.b + y.b * z.a) + x.b * (y.a * z.a + 2 * (y.b * z.b))
      ring
  one_mul x := by
    ext
    · show 1 * x.a + 2 * (0 * x.b) = x.a; ring
    · show 1 * x.b + 0 * x.a = x.b; ring
  mul_one x := by
    ext
    · show x.a * 1 + 2 * (x.b * 0) = x.a; ring
    · show x.a * 0 + x.b * 1 = x.b; ring
  mul_comm x y := by
    ext
    · show x.a * y.a + 2 * (x.b * y.b) = y.a * x.a + 2 * (y.b * x.b); ring
    · show x.a * y.b + x.b * y.a = y.a * x.b + y.b * x.a; ring
  neg_add_cancel x := by
    ext
    · show -x.a + x.a = 0; ring
    · show -x.b + x.b = 0; ring

instance : Field Qsqrt2 where
  exists_pair_ne := ⟨0, 1, fun h => by
    have h2 : (0 : ℚ) = 1 := congrArg Qsqrt2.a h
    norm_num at h2⟩
  mul_inv_cancel x hx := by
    have hden : x.a ^ 2 - 2 * x.b ^ 2 ≠ 0 := by
      intro h0
      by_cases hb : x.b = 0
      · have ha : x.a = 0 := by
          rw [hb] at h0
          have h1 : x.a ^ 2 = 0 := by linarith
          exact pow_eq_zero_iff (by norm_num) |>.mp h1
        refine hx ?_
        ext
        · rw [ha]; rfl
        · rw [hb]; rfl
      · have hq : ((x.a / x.b) : ℚ) ^ 2 = 2 := by
          field_simp
          linarith
        have hreal : (((x.a / x.b : ℚ)) : ℝ) ^ 2 = 2 := by
          exact_mod_cast congrArg (fun q : ℚ => (q : ℝ)) hq
        have habs : Real.sqrt 2 = |((x.a / x.b : ℚ) : ℝ)| := by
          rw [← hreal, Real.sqrt_sq_eq_abs]
        have hirr := irrational_sqrt_two
        rw [habs, ← Rat.cast_abs] at hirr
        exact (Rat.not_irrational _) hirr
    ext
    · show x.a * (x.a / (x.a ^ 2 - 2 * x.b ^ 2))
          + 2 * (x.b * (-x.b / (x.a ^ 2 - 2 * x.b ^ 2))) = 1
      field_simp
      ring
    · show x.a * (-x.b / (x.a ^ 2 - 2 * x.b ^ 2))
          + x.b * (x.a / (x.a ^ 2 - 2 * x.b ^ 2)) = 0
      field_simp
      ring
  inv_zero := by
    ext
    · show (0 : ℚ) / ((0 : ℚ) ^ 2 - 2 * (0 : ℚ) ^ 2) = 0
      norm_num
    · show -(0 : ℚ) / ((0 : ℚ) ^ 2 - 2 * (0 : ℚ) ^ 2) = 0
      norm_num
  nnqsmul := _
  qsmul := _

/-- The square root of two as an element of the quadratic field. -/
def sqrt2 : Qsqrt2 := ⟨0, 1⟩

end Qsqrt2

/-- Modelled from the spec: the three-function Fourier basis on the domain
from 0 to 1 (the skfda FourierBasis is not part of the provided sources)
evaluated at the five grid points 0, 1/4, 1/2, 3/4 and 1.  The functions are
the constant 1 and the normalized first harmonics, sqrt 2 times the sine and
sqrt 2 times the cosine of two pi t, whose values at these grid points are
exactly 0, plus or minus sqrt 2, and 1; rows index grid points, columns index
basis functions, matching the transposed reshape of the source. -/
def fourierBasisValues : Matrix (Fin 5) (Fin 3) Qsqrt2 :=
  Matrix.of ![![1, 0, Qsqrt2.sqrt2],
              ![1, Qsqrt2.sqrt2, 0],
              ![1, 0, -Qsqrt2.sqrt2],
              ![1, -Qsqrt2.sqrt2, 0],
              ![1, 0, Qsqrt2.sqrt2]]

/-- Function values of the docstring example: the sum of sine, cosine and the
constant 2 sampled at the five grid points. -/
def dataY : Fin 5 → Qsqrt2 := ![3, 3, 1, 1, 3]

/-- The exact coefficient vector of the docstring example: 2, and twice the
reciprocal of sqrt 2 for the two harmonics. -/
def cStar : Fin 3 → Qsqrt2 := ![⟨2, 0⟩, ⟨0, 1/2⟩, ⟨0, 1/2⟩]

/-- The Gram matrix of the example written out. -/
def gramExample : Matrix (Fin 3) (Fin 3) Qsqrt2 :=
  Matrix.of ![![⟨5, 0⟩, 0, Qsqrt2.sqrt2],
              ![0, ⟨4, 0⟩, 0],
              ![Qsqrt2.sqrt2, 0, ⟨6, 0⟩]]

/-- Matrix of the penalized weighted least-squares equation of the basis
smoother: basis values transposed, times the observation weights, times the
basis values, plus the penalty matrix (the source builds the penalty as the
smoothing parameter times the regularization matrix, zero by default). -/
def lstsqGram {m k : ℕ} (W : Matrix (Fin m) (Fin m) Qsqrt2)
    (P : Matrix (Fin k) (Fin k) Qsqrt2) (Phi : Matrix (Fin m) (Fin k) Qsqrt2) :
    Matrix (Fin k) (Fin k) Qsqrt2 :=
  Phi.transpose * W * Phi + P

/-- The three least-squares solution methods selectable on the smoother. -/
inductive LstsqMethod where
  | cholesky
  | qr
  | svd
  deriving DecidableEq, Repr

/-- The normal equations of the penalized weighted least-squares problem of
the basis smoother: a coefficient vector is a minimizer exactly when the Gram
matrix applied to it gives the weighted projection of the observations. -/
def NormalEq {m k : ℕ} (W : Matrix (Fin m) (Fin m) Qsqrt2)
    (P : Matrix (Fin k) (Fin k) Qsqrt2) (Phi : Matrix (Fin m) (Fin k) Qsqrt2)
    (y : Fin m → Qsqrt2) (c : Fin k → Qsqrt2) : Prop :=
  (lstsqGram W P Phi).mulVec c = (Phi.transpose * W).mulVec y

/-- Modelled from the spec: solve_regularized_weighted_lstsq (skfda.misc.lstsq
is not part of the provided sources).  The spec presents cholesky, qr and svd
as three factorization strategies for solving the same penalized
least-squares equation, required to produce the same coefficients for
well-conditioned systems; in exact arithmetic each returns the solution of
the normal equations, computed here by Cramer determinants (the method
argument is therefore not inspected). -/
def solve_regularized_weighted_lstsq {m k : ℕ} (_method : LstsqMethod)
    (W : Matrix (Fin m) (Fin m) Qsqrt2) (P : Matrix (Fin k) (Fin k) Qsqrt2)
    (Phi : Matrix (Fin m) (Fin k) Qsqrt2) (y : Fin m → Qsqrt2) :
    Fin k → Qsqrt2 :=
  fun i => (lstsqGram W P Phi).det⁻¹
    * Matrix.cramer (lstsqGram W P Phi) ((Phi.transpose * W).mulVec y) i

/-- Basis coefficients of the docstring example: the coefficient matrix of
the smoother applied to the function values, with default weights (identity)
and default regularization (zero penalty). -/
def basisSmootherExampleCoefs (method : LstsqMethod) : Fin 3 → Qsqrt2 :=
  solve_regularized_weighted_lstsq method 1 0 fourierBasisValues dataY

/-- Smoothed values of the docstring example in the default grid-output mode:
the hat matrix of the source is the output-point basis values times the
coefficient matrix, and output points default to the input points, so applied
to the observations it is the basis values applied to the coefficients. -/
def basisSmootherExampleSmoothed (method : LstsqMethod) : Fin 5 → Qsqrt2 :=
  fourierBasisValues.mulVec (basisSmootherExampleCoefs method)

end SkfdaSpec

namespace SkfdaSpec

/-- Claim C1, counterexample: on the batch with grid points [0,2,4,6,8,10] and
the data matrix of the outlier module docstring, fit_predict of the
outliergram detector with the default factor does not return [-1, 1, 1, -1].
The docstring example producing that vector actually instantiates the distinct
class IQROutlierDetector. -/
theorem outliergram_example_not_docstring_labels :
    OutliergramOutlierDetector.fit_predict OutliergramOutlierDetector.defaultFactor exampleFD
      ≠ [-1, 1, 1, -1] := by
  norm_num [OutliergramOutlierDetector.fit_predict, OutliergramOutlierDetector.fit,
    OutliergramOutlierDetector.compute_parabola,
    OutliergramOutlierDetector.compute_maximum_inlier_distance,
    OutliergramOutlierDetector.defaultFactor,
    ModifiedBandDepth, modified_epigraph_index, inBandMeasure, belowMeasure, trapIntegral,
    exampleFD, exampleGrid, exampleDataMatrix, FDataGrid.n_samples, FDataGrid.domainLen,
    listPairs, percentile, sortQ, insertSorted, Int.toNat_ofNat, List.drop]

/-- Claim C1, amended: on the batch with grid points [0,2,4,6,8,10] and the
data matrix of the outlier module docstring, fit_predict of the outliergram
detector with the default factor returns [1, 1, 1, 1]: every distance lies
below the quartile threshold, so no function is flagged. -/
theorem outliergram_example_labels :
    OutliergramOutlierDetector.fit_predict OutliergramOutlierDetector.defaultFactor exampleFD
      = [1, 1, 1, 1] := by
  norm_num [OutliergramOutlierDetector.fit_predict, OutliergramOutlierDetector.fit,
    OutliergramOutlierDetector.compute_parabola,
    OutliergramOutlierDetector.compute_maximum_inlier_distance,
    OutliergramOutlierDetector.defaultFactor,
    ModifiedBandDepth, modified_epigraph_index, inBandMeasure, belowMeasure, trapIntegral,
    exampleFD, exampleGrid, exampleDataMatrix, FDataGrid.n_samples, FDataGrid.domainLen,
    listPairs, percentile, sortQ, insertSorted, Int.toNat_ofNat, List.drop]

/-- Claim C2: for every batch of at least two functions, the outliergram fit
computes the modified band depth and modified epigraph index of the batch, the
parabola with coefficients a0 = a2 = -2/(N(N-1)) and a1 = 2(N+1)/(N-1), the
per-function distance parabola minus depth, and the inlier threshold third
quartile plus factor times the interquartile range; fit_predict labels a
function -1 exactly when its distance exceeds the threshold and +1 otherwise,
and the factor defaults to 3/2. -/
theorem outliergram_fit_formulas (factor : ℚ) (X : FDataGrid)
    (_hN : 2 ≤ X.n_samples) : outliergramFitSpec factor X := by
  refine ⟨rfl, rfl, rfl, rfl, ?_, ?_, rfl⟩
  · simp [OutliergramOutlierDetector.fit,
      OutliergramOutlierDetector.compute_maximum_inlier_distance]
  · simp only [OutliergramOutlierDetector.fit_predict]
    refine List.map_congr_left (fun d _ => ?_)
    by_cases h : (OutliergramOutlierDetector.fit factor X).max_inlier_distance_ < d <;>
      simp [h]

/-- Claim C2, witness: the fit specification instantiated on the concrete
docstring batch, which has four samples. -/
theorem outliergram_fit_formulas_witness :
    2 ≤ exampleFD.n_samples ∧ outliergramFitSpec (3 / 2) exampleFD := by
  have hN : 2 ≤ exampleFD.n_samples := by
    norm_num [exampleFD, exampleDataMatrix, FDataGrid.n_samples]
  exact ⟨hN, outliergram_fit_formulas (3 / 2) exampleFD hN⟩

/-! Lemmas about the first-occurrence argmax. -/

theorem argmaxAux_self_le (f : α → ℚ) : ∀ (l : List α) (best : α),
    f best ≤ f (argmaxAux f best l)
  | [], _ => le_refl _
  | x :: xs, best => by
      have h1 : f best ≤ f (if f best < f x then x else best) := by
        split
        · exact le_of_lt (by assumption)
        · exact le_rfl
      exact le_trans h1 (argmaxAux_self_le f xs _)

theorem argmaxAux_le (f : α → ℚ) : ∀ (l : List α) (best : α),
    ∀ x ∈ l, f x ≤ f (argmaxAux f best l)
  | x :: xs, best, y, hy => by
      rcases List.mem_cons.mp hy with h | h
      · subst h
        have h1 : f y ≤ f (if f best < f y then y else best) := by
          split
          · exact le_rfl
          · exact le_of_not_lt (by assumption)
        exact le_trans h1 (argmaxAux_self_le f xs _)
      · exact argmaxAux_le f xs _ y h

theorem argmaxAux_first (f : α → ℚ) : ∀ (l : List α) (best : α),
    argmaxAux f best l = best ∨
      (f best < f (argmaxAux f best l) ∧
        ∃ pre post, l = pre ++ argmaxAux f best l :: post ∧
          ∀ x ∈ pre, f x < f (argmaxAux f best l))
  | [], _ => Or.inl rfl
  | x :: xs, best => by
      by_cases hx : f best < f x
      · have hred : argmaxAux f best (x :: xs) = argmaxAux f x xs := by
          simp [argmaxAux, hx]
        rcases argmaxAux_first f xs x with h | ⟨hlt, pre, post, hsplit, hpre⟩
        · right
          rw [hred, h]
          exact ⟨hx, [], xs, rfl, by simp⟩
        · right
          rw [hred]
          generalize hg : argmaxAux f x xs = r at hlt hsplit hpre ⊢
          refine ⟨lt_trans hx hlt, x :: pre, post, by rw [hsplit]; rfl, ?_⟩
          intro z hz
          rcases List.mem_cons.mp hz with rfl | hz2
          · exact hlt
          · exact hpre z hz2
      · have hred : argmaxAux f best (x :: xs) = argmaxAux f best xs := by
          simp [argmaxAux, hx]
        rcases argmaxAux_first f xs best with h | ⟨hlt, pre, post, hsplit, hpre⟩
        · left
          rw [hred, h]
        · right
          rw [hred]
          generalize hg : argmaxAux f best xs = r at hlt hsplit hpre ⊢
          refine ⟨hlt, x :: pre, post, by rw [hsplit]; rfl, ?_⟩
          intro z hz
          rcases List.mem_cons.mp hz with rfl | hz2
          · exact lt_of_le_of_lt (le_of_not_lt hx) hlt
          · exact hpre z hz2

theorem listArgmax_eq_none {f : α → ℚ} {l : List α} :
    listArgmax f l = none ↔ l = [] := by
  cases l <;> simp [listArgmax]

theorem listArgmax_mem {f : α → ℚ} {l : List α} {r : α}
    (h : listArgmax f l = some r) : r ∈ l := by
  cases l with
  | nil => simp [listArgmax] at h
  | cons x xs =>
      simp only [listArgmax, Option.some.injEq] at h
      subst h
      rcases argmaxAux_first f xs x with h2 | ⟨_, pre, post, hsplit, _⟩
      · rw [h2]; exact List.mem_cons_self x xs
      · refine List.mem_cons_of_mem x ?_
        generalize hg : argmaxAux f x xs = r at hsplit ⊢
        rw [hsplit]
        simp

theorem listArgmax_le {f : α → ℚ} {l : List α} {r : α}
    (h : listArgmax f l = some r) : ∀ x ∈ l, f x ≤ f r := by
  cases l with
  | nil => simp [listArgmax] at h
  | cons x xs =>
      simp only [listArgmax, Option.some.injEq] at h
      subst h
      intro z hz
      rcases List.mem_cons.mp hz with rfl | hz2
      · exact argmaxAux_self_le f xs z
      · exact argmaxAux_le f xs x z hz2

theorem listArgmax_finRange {p : ℕ} (f : Fin p → ℚ) {i : Fin p}
    (h : listArgmax f (List.finRange p) = some i) :
    (∀ j, f j ≤ f i) ∧ ∀ j, f j = f i → i ≤ j := by
  have hmax : ∀ j, f j ≤ f i := fun j => listArgmax_le h j (List.mem_finRange j)
  refine ⟨hmax, ?_⟩
  have hpw : (List.finRange p).Pairwise (· < ·) := List.pairwise_lt_finRange p
  cases hl : List.finRange p with
  | nil => rw [hl] at h; simp [listArgmax] at h
  | cons x xs =>
      rw [hl] at h hpw
      simp only [listArgmax, Option.some.injEq] at h
      intro j hj
      have hjmem : j ∈ x :: xs := by rw [← hl]; exact List.mem_finRange j
      rcases argmaxAux_first f xs x with h2 | ⟨hlt, pre, post, hsplit, hpre⟩
      · -- the head is the argmax
        rw [h2] at h
        subst h
        rcases List.mem_cons.mp hjmem with rfl | hj2
        · exact le_rfl
        · exact le_of_lt ((List.pairwise_cons.mp hpw).1 j hj2)
      · rw [h] at hlt hsplit hpre
        rcases List.mem_cons.mp hjmem with rfl | hj2
        · exact absurd hj (ne_of_lt hlt)
        · rw [hsplit] at hj2 hpw
          rcases List.mem_append.mp hj2 with hj3 | hj4
          · exact absurd hj (ne_of_lt (hpre j hj3))
          · rcases List.mem_cons.mp hj4 with rfl | hj5
            · exact le_rfl
            · have hpw2 := (List.pairwise_cons.mp hpw).2
              have hpw3 := (List.pairwise_append.mp hpw2).2.1
              exact le_of_lt ((List.pairwise_cons.mp hpw3).1 j hj5)

/-! Lemmas about the greedy selection loop. -/

theorem greedyLoop_prefix {p : ℕ} (s : List (Fin p) → Fin p → ℚ) :
    ∀ (m : ℕ) (sel pool : List (Fin p)),
      ∃ rest, greedyLoop s sel pool m = sel ++ rest
  | 0, sel, _ => ⟨[], by simp [greedyLoop]⟩
  | m + 1, sel, pool => by
      cases h : listArgmax (s sel) pool with
      | none => exact ⟨[], by simp [greedyLoop, h]⟩
      | some c =>
          obtain ⟨rest, hr⟩ := greedyLoop_prefix s m (sel ++ [c]) (pool.erase c)
          refine ⟨c :: rest, ?_⟩
          simp only [greedyLoop, h]
          rw [hr, List.append_assoc]
          rfl

theorem greedyLoop_length {p : ℕ} (s : List (Fin p) → Fin p → ℚ) :
    ∀ (m : ℕ) (sel pool : List (Fin p)), m ≤ pool.length →
      (greedyLoop s sel pool m).length = sel.length + m
  | 0, sel, _, _ => by simp [greedyLoop]
  | m + 1, sel, pool, hm => by
      have hne : pool ≠ [] := by
        rintro rfl
        simp at hm
      cases h : listArgmax (s sel) pool with
      | none => exact absurd (listArgmax_eq_none.mp h) hne
      | some c =>
          have hc : c ∈ pool := listArgmax_mem h
          have hlen : (pool.erase c).length = pool.length - 1 :=
            List.length_erase_of_mem hc
          have hm2 : m ≤ (pool.erase c).length := by
            rw [hlen]; omega
          have ih := greedyLoop_length s m (sel ++ [c]) (pool.erase c) hm2
          simp only [greedyLoop, h, ih, List.length_append, List.length_cons,
            List.length_nil]
          omega

theorem greedyLoop_perm {p : ℕ} (s : List (Fin p) → Fin p → ℚ) :
    ∀ (m : ℕ) (sel pool : List (Fin p)), m = pool.length →
      (greedyLoop s sel pool m).Perm (sel ++ pool)
  | 0, sel, pool, h0 => by
      have hpool : pool = [] := List.length_eq_zero.mp h0.symm
      subst hpool
      simp [greedyLoop]
  | m + 1, sel, pool, hm => by
      have hne : pool ≠ [] := by
        rintro rfl
        simp at hm
      cases h : listArgmax (s sel) pool with
      | none => exact absurd (listArgmax_eq_none.mp h) hne
      | some c =>
          have hc : c ∈ pool := listArgmax_mem h
          have hlen : m = (pool.erase c).length := by
            rw [List.length_erase_of_mem hc]
            omega
          have ih := greedyLoop_perm s m (sel ++ [c]) (pool.erase c) hlen
          simp only [greedyLoop, h]
          refine ih.trans ?_
          rw [List.append_assoc]
          exact List.Perm.append_left sel (List.perm_cons_erase hc).symm

/-- Comparison of the squared separation scores agrees with comparison of
the square-root form computed by the source whenever the variances are
positive. -/
theorem muSigma_sqrt_le {m1 v1 m2 v2 : ℚ} (h1 : 0 < v1) (h2 : 0 < v2) :
    (m1 ^ 2 / v1 ≤ m2 ^ 2 / v2) ↔
      |(m1 : ℝ)| / Real.sqrt (v1 : ℝ) ≤ |(m2 : ℝ)| / Real.sqrt (v2 : ℝ) := by
  have hv1 : (0 : ℝ) < (v1 : ℝ) := by exact_mod_cast h1
  have hv2 : (0 : ℝ) < (v2 : ℝ) := by exact_mod_cast h2
  have ha : (0 : ℝ) ≤ |(m1 : ℝ)| / Real.sqrt (v1 : ℝ) :=
    div_nonneg (abs_nonneg _) (Real.sqrt_nonneg _)
  have hb : (0 : ℝ) ≤ |(m2 : ℝ)| / Real.sqrt (v2 : ℝ) :=
    div_nonneg (abs_nonneg _) (Real.sqrt_nonneg _)
  have key1 : (|(m1 : ℝ)| / Real.sqrt (v1 : ℝ)) ^ 2 = (m1 : ℝ) ^ 2 / (v1 : ℝ) := by
    rw [div_pow, sq_abs, Real.sq_sqrt hv1.le]
  have key2 : (|(m2 : ℝ)| / Real.sqrt (v2 : ℝ)) ^ 2 = (m2 : ℝ) ^ 2 / (v2 : ℝ) := by
    rw [div_pow, sq_abs, Real.sq_sqrt hv2.le]
  have hsq : ∀ a b : ℝ, 0 ≤ a → 0 ≤ b → (a ≤ b ↔ a ^ 2 ≤ b ^ 2) := by
    intro a b hA hB
    constructor
    · exact fun h => pow_le_pow_left₀ hA h 2
    · intro h
      by_contra hcon
      exact absurd (pow_lt_pow_left₀ (lt_of_not_le hcon) hB two_ne_zero)
        (not_lt.mpr h)
  rw [hsq _ _ ha hb, key1, key2]
  rw [show ((m1 : ℝ) ^ 2 / (v1 : ℝ)) = ((m1 ^ 2 / v1 : ℚ) : ℝ) by push_cast; ring,
    show ((m2 : ℝ) ^ 2 / (v2 : ℝ)) = ((m2 ^ 2 / v2 : ℚ) : ℝ) by push_cast; ring]
  exact Iff.symm Rat.cast_le

/-- Equality of the squared separation scores agrees with equality of the
square-root form whenever the variances are positive. -/
theorem muSigma_sqrt_eq {m1 v1 m2 v2 : ℚ} (h1 : 0 < v1) (h2 : 0 < v2) :
    (m1 ^ 2 / v1 = m2 ^ 2 / v2) ↔
      |(m1 : ℝ)| / Real.sqrt (v1 : ℝ) = |(m2 : ℝ)| / Real.sqrt (v2 : ℝ) := by
  rw [le_antisymm_iff, le_antisymm_iff, muSigma_sqrt_le h1 h2,
    muSigma_sqrt_le h2 h1]

/-- Claim C4: for a two-class input with positive pooled variances and an
admissible number of components, the first selected domain point maximizes
the quotient of the absolute mean difference by the square root of the pooled
variance, with ties broken by first occurrence (the selected index is the
least index among the maximizers). -/
theorem rkvs_first_point {n p : ℕ} (stepScore : List (Fin p) → Fin p → ℚ)
    (X : Fin n → Fin p → ℚ) (Y : Fin n → ℚ) (k : ℕ)
    (hk1 : 1 ≤ k) (hkp : k ≤ p) (hvar : ∀ t, 0 < pooledVarDiag X Y t) :
    ∃ sel, rkhs_vs stepScore X Y k = some sel ∧
      ∃ i, sel.head? = some i ∧
        (∀ j, |(rkvsMeans X Y j : ℝ)| / Real.sqrt ((pooledVarDiag X Y j : ℝ)) ≤
            |(rkvsMeans X Y i : ℝ)| / Real.sqrt ((pooledVarDiag X Y i : ℝ))) ∧
        ∀ j, |(rkvsMeans X Y j : ℝ)| / Real.sqrt ((pooledVarDiag X Y j : ℝ)) =
            |(rkvsMeans X Y i : ℝ)| / Real.sqrt ((pooledVarDiag X Y i : ℝ)) →
          i ≤ j := by
  have hp : 0 < p := lt_of_lt_of_le hk1 hkp
  cases h : listArgmax (muSigmaSq X Y) (List.finRange p) with
  | none =>
      exact absurd (List.finRange_eq_nil.mp (listArgmax_eq_none.mp h)) hp.ne'
  | some i0 =>
      obtain ⟨hmax, hfirst⟩ := listArgmax_finRange (muSigmaSq X Y) h
      obtain ⟨rest, hrest⟩ :=
        greedyLoop_prefix stepScore (k - 1) [i0] ((List.finRange p).erase i0)
      refine ⟨greedyLoop stepScore [i0] ((List.finRange p).erase i0) (k - 1),
        ?_, i0, ?_, ?_, ?_⟩
      · unfold rkhs_vs
        rw [if_pos ⟨hk1, hkp⟩, h]
      · rw [hrest]; rfl
      · intro j
        exact (muSigma_sqrt_le (hvar j) (hvar i0)).mp
          (by simpa [muSigmaSq] using hmax j)
      · intro j hj
        exact hfirst j
          (by simpa [muSigmaSq] using (muSigma_sqrt_eq (hvar j) (hvar i0)).mpr hj)

/-- Claim C4, witness: the first-selection property instantiated on four
samples over one domain point with labels 0, 0, 1, 1 and values 0, 2, 0, 2,
whose pooled variance is 1. -/
theorem rkvs_first_point_witness :
    (1 ≤ 1 ∧ 1 ≤ 1 ∧ ∀ t, 0 < pooledVarDiag rkvsWitnessX rkvsWitnessY t) ∧
    ∃ sel, rkhs_vs (fun _ _ => 0) rkvsWitnessX rkvsWitnessY 1 = some sel ∧
      ∃ i, sel.head? = some i ∧
        (∀ j, |(rkvsMeans rkvsWitnessX rkvsWitnessY j : ℝ)| /
            Real.sqrt ((pooledVarDiag rkvsWitnessX rkvsWitnessY j : ℝ)) ≤
          |(rkvsMeans rkvsWitnessX rkvsWitnessY i : ℝ)| /
            Real.sqrt ((pooledVarDiag rkvsWitnessX rkvsWitnessY i : ℝ))) ∧
        ∀ j, |(rkvsMeans rkvsWitnessX rkvsWitnessY j : ℝ)| /
            Real.sqrt ((pooledVarDiag rkvsWitnessX rkvsWitnessY j : ℝ)) =
          |(rkvsMeans rkvsWitnessX rkvsWitnessY i : ℝ)| /
            Real.sqrt ((pooledVarDiag rkvsWitnessX rkvsWitnessY i : ℝ)) →
          i ≤ j := by
  have hvar : ∀ t, 0 < pooledVarDiag rkvsWitnessX rkvsWitnessY t := by
    intro t
    norm_num [pooledVarDiag, classVarDiag, classMean, classCount,
      rkvsWitnessX, rkvsWitnessY, Fin.sum_univ_four, -Finset.sum_boole]
  exact ⟨⟨le_rfl, le_rfl, hvar⟩,
    rkvs_first_point (fun _ _ => 0) rkvsWitnessX rkvsWitnessY 1 le_rfl le_rfl hvar⟩

/-- Claim C8: the fit of the RKHS variable selector raises the
invalid-argument (value) error exactly when the number of distinct labels is
not two, and it does so independently of the trajectories, the component
count and the selection machinery, hence before any selection computation;
in particular a concrete three-label input produces that error. -/
theorem rkvs_fit_label_check {n p : ℕ} (stepScore : List (Fin p) → Fin p → ℚ)
    (X : Fin n → Fin p → ℚ) (Y : Fin n → ℚ) (k : ℕ) :
    (RKHSVariableSelection.fit stepScore X Y k = .error .valueError ↔
      distinctLabelCount Y ≠ 2) ∧
    RKHSVariableSelection.fit (p := 1) (fun _ _ => 0)
      (fun (_ : Fin 3) _ => 0) (fun i => ((i : ℕ) : ℚ)) 1
      = .error .valueError := by
  constructor
  · unfold RKHSVariableSelection.fit
    by_cases h : distinctLabelCount Y ≠ 2
    · rw [if_pos h]
      simpa using h
    · rw [if_neg h]
      cases h2 : rkhs_vs stepScore X Y k <;> simp [h]
  · have hcount : distinctLabelCount (fun i : Fin 3 => ((i : ℕ) : ℚ)) = 3 := by
      unfold distinctLabelCount
      rw [Finset.card_image_of_injective]
      · simp
      · intro a b hab
        have hab2 : ((a : ℕ) : ℚ) = ((b : ℕ) : ℚ) := hab
        exact Fin.ext (by exact_mod_cast hab2)
    unfold RKHSVariableSelection.fit
    rw [if_pos (by rw [hcount]; decide)]

/-- Claim C8, witness: the label-cardinality characterization applied to a
concrete two-label input (where fit does not raise the value error) and to
the three-label input. -/
theorem rkvs_fit_label_check_witness :
    ¬(RKHSVariableSelection.fit (fun _ _ => 0) rkvsWitnessX rkvsWitnessY 1
        = .error .valueError) ∧
    RKHSVariableSelection.fit (p := 1) (fun _ _ => 0)
      (fun (_ : Fin 3) _ => 0) (fun i => ((i : ℕ) : ℚ)) 1
      = .error .valueError := by
  have himg : Finset.univ.image rkvsWitnessY = ({0, 1} : Finset ℚ) := by
    ext a
    constructor
    · intro hm
      obtain ⟨i, _, hi⟩ := Finset.mem_image.mp hm
      rw [← hi]
      fin_cases i <;> norm_num [rkvsWitnessY]
    · intro hm
      rcases Finset.mem_insert.mp hm with rfl | hm2
      · exact Finset.mem_image.mpr ⟨0, Finset.mem_univ _, by norm_num [rkvsWitnessY]⟩
      · rw [Finset.mem_singleton.mp hm2]
        exact Finset.mem_image.mpr ⟨3, Finset.mem_univ _, by norm_num [rkvsWitnessY]⟩
  have hcount : distinctLabelCount rkvsWitnessY = 2 := by
    unfold distinctLabelCount
    rw [himg, Finset.card_insert_of_not_mem (by norm_num), Finset.card_singleton]
  exact ⟨fun hcon =>
      absurd ((rkvs_fit_label_check (fun _ _ => 0) rkvsWitnessX rkvsWitnessY 1).1.mp hcon)
        (by rw [hcount]; decide),
    (rkvs_fit_label_check (fun _ _ => 0) rkvsWitnessX rkvsWitnessY 1).2⟩

/-- Claim C9: for every input on a positive number p of domain points and
every step-score function, the greedy selection with as many components as
domain points terminates with a defined result that lists every domain point
exactly once: the selection has length p, has no duplicates, and contains
every point. -/
theorem rkvs_select_all {n p : ℕ} (stepScore : List (Fin p) → Fin p → ℚ)
    (X : Fin n → Fin p → ℚ) (Y : Fin n → ℚ) (hp : 0 < p) :
    ∃ sel, rkhs_vs stepScore X Y p = some sel ∧
      sel.length = p ∧ sel.Nodup ∧ ∀ t : Fin p, t ∈ sel := by
  cases h : listArgmax (muSigmaSq X Y) (List.finRange p) with
  | none =>
      exact absurd (List.finRange_eq_nil.mp (listArgmax_eq_none.mp h)) hp.ne'
  | some i0 =>
      have hi0 : i0 ∈ List.finRange p := listArgmax_mem h
      have hplen : ((List.finRange p).erase i0).length = p - 1 := by
        rw [List.length_erase_of_mem hi0, List.length_finRange]
      have hperm :=
        greedyLoop_perm stepScore (p - 1) [i0] ((List.finRange p).erase i0)
          hplen.symm
      have hperm2 :
          (greedyLoop stepScore [i0] ((List.finRange p).erase i0) (p - 1)).Perm
            (List.finRange p) := by
        refine hperm.trans ?_
        exact (List.perm_cons_erase hi0).symm
      refine ⟨greedyLoop stepScore [i0] ((List.finRange p).erase i0) (p - 1),
        ?_, ?_, ?_, ?_⟩
      · unfold rkhs_vs
        rw [if_pos ⟨hp, le_refl p⟩, h]
      · rw [hperm2.length_eq, List.length_finRange]
      · exact hperm2.symm.nodup (List.nodup_finRange p)
      · intro t
        exact hperm2.mem_iff.mpr (List.mem_finRange t)

/-- Claim C9, witness: the full-selection property instantiated on one
sample over two domain points with the zero step score. -/
theorem rkvs_select_all_witness :
    0 < 2 ∧
    ∃ sel, rkhs_vs (fun _ _ => 0) (fun (_ : Fin 1) (_ : Fin 2) => (0 : ℚ))
        (fun _ => 0) 2 = some sel ∧
      sel.length = 2 ∧ sel.Nodup ∧ ∀ t : Fin 2, t ∈ sel :=
  ⟨by decide,
    rkvs_select_all (fun _ _ => 0) (fun _ _ => 0) (fun _ => 0) (by decide)⟩

/-- Claim C10: the greedy selection is defined exactly when the number of
components lies between 1 and the number of domain points; outside that range
it is undefined and, on a two-label input, fit surfaces this as the assertion
error with no fitted attributes produced; inside the range the selection has
exactly the requested length and every selected index is within the bounds of
the arrays of means and covariances. -/
theorem rkvs_components_guard {n p : ℕ} (stepScore : List (Fin p) → Fin p → ℚ)
    (X : Fin n → Fin p → ℚ) (Y : Fin n → ℚ) (k : ℕ) :
    (rkhs_vs stepScore X Y k = none ↔ ¬(1 ≤ k ∧ k ≤ p)) ∧
    (distinctLabelCount Y = 2 →
      (RKHSVariableSelection.fit stepScore X Y k = .error .assertionError ↔
        ¬(1 ≤ k ∧ k ≤ p))) ∧
    ∀ sel, rkhs_vs stepScore X Y k = some sel →
      sel.length = k ∧ ∀ t ∈ sel, (t : ℕ) < p := by
  have hnone : rkhs_vs stepScore X Y k = none ↔ ¬(1 ≤ k ∧ k ≤ p) := by
    unfold rkhs_vs
    by_cases hk : 1 ≤ k ∧ k ≤ p
    · rw [if_pos hk]
      have hp : 0 < p := lt_of_lt_of_le hk.1 hk.2
      cases h : listArgmax (muSigmaSq X Y) (List.finRange p) with
      | none =>
          exact absurd (List.finRange_eq_nil.mp (listArgmax_eq_none.mp h)) hp.ne'
      | some i0 => simp [hk]
    · rw [if_neg hk]
      simp [hk]
  refine ⟨hnone, ?_, ?_⟩
  · intro hlab
    unfold RKHSVariableSelection.fit
    rw [if_neg (by simp [hlab])]
    cases h2 : rkhs_vs stepScore X Y k with
    | none =>
        simp only [h2] at hnone
        have hp2 := hnone.mp trivial
        simp [hp2]
    | some sel =>
        have : ¬(rkhs_vs stepScore X Y k = none) := by simp [h2]
        simp only [hnone] at this
        simp [not_not.mp this]
  · intro sel hsel
    have hk : 1 ≤ k ∧ k ≤ p := by
      by_contra hcon
      rw [hnone.mpr hcon] at hsel
      exact Option.noConfusion hsel
    unfold rkhs_vs at hsel
    rw [if_pos hk] at hsel
    cases h : listArgmax (muSigmaSq X Y) (List.finRange p) with
    | none => rw [h] at hsel; exact Option.noConfusion hsel
    | some i0 =>
        rw [h] at hsel
        have hi0 : i0 ∈ List.finRange p := listArgmax_mem h
        have hplen : ((List.finRange p).erase i0).length = p - 1 := by
          rw [List.length_erase_of_mem hi0, List.length_finRange]
        have hlen := greedyLoop_length stepScore (k - 1) [i0]
          ((List.finRange p).erase i0) (by rw [hplen]; omega)
        constructor
        · rw [← Option.some_inj.mp hsel, hlen]
          simp only [List.length_cons, List.length_nil]
          omega
        · intro t _
          exact t.isLt

/-- Claim C10, witness: three components on two domain points violate the
precondition, so the selection is undefined there; one component on two
domain points satisfies it and selects one in-bounds index. -/
theorem rkvs_components_guard_witness :
    rkhs_vs (fun _ _ => 0) (fun (_ : Fin 1) (_ : Fin 2) => (0 : ℚ))
        (fun _ => 0) 3 = none ∧
    ∀ sel, rkhs_vs (fun _ _ => 0) (fun (_ : Fin 1) (_ : Fin 2) => (0 : ℚ))
        (fun _ => 0) 1 = some sel →
      sel.length = 1 ∧ ∀ t ∈ sel, (t : ℕ) < 2 :=
  ⟨(rkvs_components_guard (fun _ _ => 0) (fun _ _ => 0) (fun _ => 0) 3).1.mpr
      (by decide),
    (rkvs_components_guard (fun _ _ => 0) (fun _ _ => 0) (fun _ => 0) 1).2.2⟩

/-- The zip-based dimensionwise equality check coincides with list equality
when the dimension counts agree. -/
theorem transformGridCheck_iff :
    ∀ (a b : List (List ℚ)), a.length = b.length →
      (transformGridCheck a b = true ↔ a = b)
  | [], [], _ => by simp [transformGridCheck]
  | [], _ :: _, h => by simp at h
  | _ :: _, [], h => by simp at h
  | x :: xs, y :: ys, h => by
      have ih := transformGridCheck_iff xs ys (by simpa using h)
      simp only [transformGridCheck, List.zip_cons_cons, List.all_cons,
        Bool.and_eq_true, decide_eq_true_eq] at ih ⊢
      rw [ih]
      simp

/-- Claim C6: for a fitted basis smoother and new data with the same number
of domain dimensions, transform fails with the assertion error exactly when
the recorded input points differ from those of the new data, and succeeds,
producing the smoothing payload, when they are equal. -/
theorem basis_transform_grid_guard {α β : Type} (smooth : α → β)
    (fitted xPoints : List (List ℚ)) (X : α)
    (hlen : fitted.length = xPoints.length) :
    (BasisSmoother.transform smooth fitted xPoints X = .error .assertionError ↔
      fitted ≠ xPoints) ∧
    (fitted = xPoints →
      BasisSmoother.transform smooth fitted xPoints X = .ok (smooth X)) := by
  unfold BasisSmoother.transform
  by_cases hc : transformGridCheck fitted xPoints = true
  · rw [if_pos hc]
    have heq := (transformGridCheck_iff fitted xPoints hlen).mp hc
    simp [heq]
  · rw [if_neg hc]
    have hne : fitted ≠ xPoints := fun heq =>
      hc ((transformGridCheck_iff fitted xPoints hlen).mpr heq)
    simp [hne]

/-- Claim C6, witness: the guard applied to a fitted grid equal to the new
grid (transform succeeds) and the disequality direction on differing grids
of the same dimension count. -/
theorem basis_transform_grid_guard_witness :
    (BasisSmoother.transform (fun X : FDataGrid => X)
        (BasisSmoother.inputPointsOf exampleFD)
        (BasisSmoother.inputPointsOf exampleFD) exampleFD
      = .ok exampleFD) ∧
    BasisSmoother.transform (fun X : FDataGrid => X) [[0, 1]] [[0, 2]] exampleFD
      = .error .assertionError := by
  constructor
  · exact (basis_transform_grid_guard (fun X : FDataGrid => X)
      (BasisSmoother.inputPointsOf exampleFD)
      (BasisSmoother.inputPointsOf exampleFD) exampleFD rfl).2 rfl
  · refine (basis_transform_grid_guard (fun X : FDataGrid => X)
      [[0, 1]] [[0, 2]] exampleFD rfl).1.mpr ?_
    intro hcon
    have : ([0, 1] : List ℚ) = [0, 2] := by
      injection hcon with h1 _
    have h2 : (1 : ℚ) = 2 := by
      injection this with _ h3
      injection h3 with h4 _
    norm_num at h2

/-- Claim C7, counterexample: calling predict on an unfitted outliergram
detector does not produce a not-fitted error; the class has no predict
method, so the call fails with the attribute error instead. -/
theorem outliergram_predict_no_notfitted :
    OutliergramOutlierDetector.predict none exampleFD
        = .error .attributeError ∧
    (Except.error PyError.attributeError : Except PyError (List ℤ))
        ≠ .error .notFittedError := by
  exact ⟨rfl, by simp⟩

/-- Claim C7, amended: the transform of the RKHS variable selector before
fit fails with the scikit-learn not-fitted error, while predict on the
outliergram detector fails with the attribute error regardless of the fitted
state, because the class defines no predict method. -/
theorem unfitted_call_errors :
    (∀ {p m : ℕ} (Xnew : Fin m → Fin p → ℚ),
      RKHSVariableSelection.transform none Xnew = .error .notFittedError) ∧
    ∀ (st : Option OutliergramFitted) (X : FDataGrid),
      OutliergramOutlierDetector.predict st X = .error .attributeError := by
  exact ⟨fun _ => rfl, fun _ _ => rfl⟩

/-- Pairs drawn from the zip of a list with itself have equal components. -/
theorem zip_self_eq {α : Type} :
    ∀ (l : List α) (x : α × α), x ∈ l.zip l → x.1 = x.2
  | a :: l, x, hx => by
      rcases List.mem_cons.mp (by simpa using hx) with rfl | hx2
      · rfl
      · exact zip_self_eq l x hx2

/-- Claim C5: the geometric median of a functional batch is the re-wrapped
geometric median of its value matrix, for every metric, tolerance and
iteration bound: the wrapped result keeps the grid, its single row is the
matrix-routine result, and the two agree elementwise within relative
tolerance one in ten thousand. -/
theorem geometric_median_wrap (metric : List ℚ → List ℚ → ℚ)
    (X : FDataGrid) (tol : ℚ) (maxIter : ℕ) :
    (geometric_median_fd metric X tol maxIter).grid_points = X.grid_points ∧
    (geometric_median_fd metric X tol maxIter).data_matrix
      = [geometric_median metric X.data_matrix tol maxIter
          (coordMean X.data_matrix)] ∧
    ∀ pair ∈ List.zip
        ((geometric_median_fd metric X tol maxIter).data_matrix.head?.getD [])
        (geometric_median metric X.data_matrix tol maxIter
          (coordMean X.data_matrix)),
      |pair.1 - pair.2| ≤ 1 / 10000 * |pair.2| := by
  refine ⟨rfl, rfl, ?_⟩
  intro pair hpair
  have hfd : (geometric_median_fd metric X tol maxIter).data_matrix.head?.getD []
      = geometric_median metric X.data_matrix tol maxIter
          (coordMean X.data_matrix) := rfl
  rw [hfd] at hpair
  have heq := zip_self_eq _ pair hpair
  rw [heq, sub_self, abs_zero]
  positivity

/-! Component equations of the quadratic field, and the least-squares facts
of the basis smoother example. -/

namespace Qsqrt2

theorem a_add (x y : Qsqrt2) : (x + y).a = x.a + y.a := rfl

theorem b_add (x y : Qsqrt2) : (x + y).b = x.b + y.b := rfl

theorem a_mul (x y : Qsqrt2) : (x * y).a = x.a * y.a + 2 * (x.b * y.b) := rfl

theorem b_mul (x y : Qsqrt2) : (x * y).b = x.a * y.b + x.b * y.a := rfl

theorem a_neg (x : Qsqrt2) : (-x).a = -x.a := rfl

theorem b_neg (x : Qsqrt2) : (-x).b = -x.b := rfl

theorem a_zero : (0 : Qsqrt2).a = 0 := rfl

theorem b_zero : (0 : Qsqrt2).b = 0 := rfl

theorem a_one : (1 : Qsqrt2).a = 1 := rfl

theorem b_one : (1 : Qsqrt2).b = 0 := rfl

theorem a_ofNat (n : ℕ) [Nat.AtLeastTwo n] :
    (no_index (OfNat.ofNat n) : Qsqrt2).a = OfNat.ofNat n := by
  show ((OfNat.ofNat n : ℕ) : ℚ) = OfNat.ofNat n
  exact Nat.cast_ofNat

theorem b_ofNat (n : ℕ) [Nat.AtLeastTwo n] :
    (no_index (OfNat.ofNat n) : Qsqrt2).b = 0 := rfl

theorem a_sub (x y : Qsqrt2) : (x - y).a = x.a - y.a := by
  rw [sub_eq_add_neg, a_add, a_neg, sub_eq_add_neg]

theorem b_sub (x y : Qsqrt2) : (x - y).b = x.b - y.b := by
  rw [sub_eq_add_neg, b_add, b_neg, sub_eq_add_neg]

end Qsqrt2

open Qsqrt2 in
theorem gram_example_eq : lstsqGram 1 0 fourierBasisValues = gramExample := by
  unfold lstsqGram
  rw [Matrix.mul_one, add_zero]
  apply Matrix.ext
  intro i j
  fin_cases i <;> fin_cases j <;>
    (refine Qsqrt2.ext ?_ ?_) <;>
    simp [Matrix.mul_apply, Matrix.transpose_apply, Fin.sum_univ_five,
      Matrix.vecHead, Matrix.vecTail, fourierBasisValues, gramExample, sqrt2,
      a_add, b_add, a_mul, b_mul, a_neg, b_neg, a_zero, b_zero, a_one, b_one,
      a_ofNat, b_ofNat] <;>
    norm_num

open Qsqrt2 in
theorem gram_example_det : gramExample.det = ⟨112, 0⟩ := by
  rw [Matrix.det_fin_three]
  refine Qsqrt2.ext ?_ ?_ <;>
    (simp [gramExample, sqrt2, a_add, b_add, a_mul, b_mul, a_neg, b_neg,
      a_sub, b_sub, a_zero, b_zero, a_one, b_one, a_ofNat, b_ofNat]
     try norm_num)

theorem gram_example_isUnit : IsUnit (lstsqGram 1 0 fourierBasisValues).det := by
  rw [gram_example_eq, gram_example_det]
  refine isUnit_iff_ne_zero.mpr (fun h => ?_)
  have h2 : (112 : ℚ) = 0 := congrArg Qsqrt2.a h
  norm_num at h2

theorem normalEq_unique {m k : ℕ} {W : Matrix (Fin m) (Fin m) Qsqrt2}
    {P : Matrix (Fin k) (Fin k) Qsqrt2} {Phi : Matrix (Fin m) (Fin k) Qsqrt2}
    {y : Fin m → Qsqrt2} {c1 c2 : Fin k → Qsqrt2}
    (hdet : IsUnit (lstsqGram W P Phi).det)
    (h1 : NormalEq W P Phi y c1) (h2 : NormalEq W P Phi y c2) : c1 = c2 := by
  have h := h1.trans h2.symm
  have h3 := congrArg (fun v => (lstsqGram W P Phi)⁻¹.mulVec v) h
  simpa [Matrix.mulVec_mulVec, Matrix.nonsing_inv_mul _ hdet,
    Matrix.one_mulVec] using h3

theorem solver_normalEq {m k : ℕ} (method : LstsqMethod)
    {W : Matrix (Fin m) (Fin m) Qsqrt2} {P : Matrix (Fin k) (Fin k) Qsqrt2}
    {Phi : Matrix (Fin m) (Fin k) Qsqrt2} {y : Fin m → Qsqrt2}
    (hdet : IsUnit (lstsqGram W P Phi).det) :
    NormalEq W P Phi y (solve_regularized_weighted_lstsq method W P Phi y) := by
  unfold NormalEq solve_regularized_weighted_lstsq
  have hs : (fun i => (lstsqGram W P Phi).det⁻¹
      * Matrix.cramer (lstsqGram W P Phi) ((Phi.transpose * W).mulVec y) i)
      = (lstsqGram W P Phi).det⁻¹
        • Matrix.cramer (lstsqGram W P Phi) ((Phi.transpose * W).mulVec y) := rfl
  rw [hs, Matrix.mulVec_smul, Matrix.mulVec_cramer, smul_smul,
    inv_mul_cancel₀ (IsUnit.ne_zero hdet), one_smul]

open Qsqrt2 in
theorem phiT_mulVec_y :
    (fourierBasisValues.transpose * (1 : Matrix (Fin 5) (Fin 5) Qsqrt2)).mulVec dataY
      = ![⟨11, 0⟩, ⟨0, 2⟩, ⟨0, 5⟩] := by
  rw [Matrix.mul_one]
  funext i
  fin_cases i <;>
    (refine Qsqrt2.ext ?_ ?_) <;>
    simp [Matrix.mulVec, Matrix.dotProduct, Fin.sum_univ_five,
      Matrix.transpose_apply, fourierBasisValues, dataY, sqrt2,
      Matrix.vecHead, Matrix.vecTail,
      a_add, b_add, a_mul, b_mul, a_neg, b_neg, a_zero, b_zero, a_one, b_one,
      a_ofNat, b_ofNat] <;>
    norm_num

open Qsqrt2 in
theorem cStar_normalEq :
    NormalEq 1 0 fourierBasisValues dataY cStar := by
  unfold NormalEq
  rw [gram_example_eq, phiT_mulVec_y]
  funext i
  fin_cases i <;>
    (refine Qsqrt2.ext ?_ ?_) <;>
    simp [Matrix.mulVec, Matrix.dotProduct, Fin.sum_univ_three,
      gramExample, cStar, sqrt2, Matrix.vecHead, Matrix.vecTail,
      a_add, b_add, a_mul, b_mul, a_neg, b_neg, a_zero, b_zero, a_one, b_one,
      a_ofNat, b_ofNat] <;>
    norm_num

open Qsqrt2 in
theorem phi_mulVec_cStar :
    fourierBasisValues.mulVec cStar = ![3, 3, 1, 1, 3] := by
  funext i
  fin_cases i <;>
    (refine Qsqrt2.ext ?_ ?_) <;>
    simp [Matrix.mulVec, Matrix.dotProduct, Fin.sum_univ_three,
      fourierBasisValues, cStar, sqrt2, Matrix.vecHead, Matrix.vecTail,
      a_add, b_add, a_mul, b_mul, a_neg, b_neg, a_zero, b_zero, a_one, b_one,
      a_ofNat, b_ofNat] <;>
    norm_num

theorem coefs_eq_cStar (method : LstsqMethod) :
    basisSmootherExampleCoefs method = cStar :=
  normalEq_unique gram_example_isUnit
    (solver_normalEq method gram_example_isUnit) cStar_normalEq

theorem sqrt_two_bounds :
    (141 / 100 : ℝ) < Real.sqrt 2 ∧ Real.sqrt 2 < 143 / 100 := by
  constructor
  · rw [show (141 / 100 : ℝ) = Real.sqrt ((141 / 100) ^ 2) from
      (Real.sqrt_sq (by norm_num)).symm]
    exact Real.sqrt_lt_sqrt (by positivity) (by norm_num)
  · rw [show (143 / 100 : ℝ) = Real.sqrt ((143 / 100) ^ 2) from
      (Real.sqrt_sq (by norm_num)).symm]
    exact Real.sqrt_lt_sqrt (by positivity) (by norm_num)

theorem cStar_rounding :
    (((cStar 0).a : ℝ) + ((cStar 0).b : ℝ) * Real.sqrt 2 = 2) ∧
    |(((cStar 1).a : ℝ) + ((cStar 1).b : ℝ) * Real.sqrt 2) - 71 / 100| < 1 / 200 ∧
    |(((cStar 2).a : ℝ) + ((cStar 2).b : ℝ) * Real.sqrt 2) - 71 / 100| < 1 / 200 := by
  obtain ⟨hl, hu⟩ := sqrt_two_bounds
  have hc0 : cStar 0 = ⟨2, 0⟩ := rfl
  have hc1 : cStar 1 = ⟨0, 1/2⟩ := rfl
  have hc2 : cStar 2 = ⟨0, 1/2⟩ := rfl
  refine ⟨?_, ?_, ?_⟩
  · rw [hc0]
    push_cast
    ring
  · rw [hc1, abs_lt]
    push_cast
    constructor <;> nlinarith
  · rw [hc2, abs_lt]
    push_cast
    constructor <;> nlinarith

/-- Claim C3: for any penalized weighted least-squares system whose Gram
matrix has invertible determinant (the well-conditioned case) any two
solutions of the normal equations coincide — so all solver methods, each of
which returns a normal-equation solution, produce the same coefficients —
and on the docstring example with a three-function Fourier basis on the unit
interval the coefficients equal (2, 1/sqrt 2, 1/sqrt 2) for every method,
the smoothed values in the default grid mode reproduce (3, 3, 1, 1, 3)
exactly, and the coefficients round to 2.00, 0.71 and 0.71 at two decimal
places. -/
theorem basis_smoother_equivalence {m k : ℕ} (method : LstsqMethod)
    (W : Matrix (Fin m) (Fin m) Qsqrt2) (P : Matrix (Fin k) (Fin k) Qsqrt2)
    (Phi : Matrix (Fin m) (Fin k) Qsqrt2) (y : Fin m → Qsqrt2)
    (c1 c2 : Fin k → Qsqrt2)
    (hdet : IsUnit (lstsqGram W P Phi).det)
    (h1 : NormalEq W P Phi y c1) (h2 : NormalEq W P Phi y c2) :
    c1 = c2 ∧
    NormalEq W P Phi y (solve_regularized_weighted_lstsq method W P Phi y) ∧
    basisSmootherExampleCoefs method = cStar ∧
    basisSmootherExampleSmoothed method = ![3, 3, 1, 1, 3] ∧
    (((cStar 0).a : ℝ) + ((cStar 0).b : ℝ) * Real.sqrt 2 = 2) ∧
    |(((cStar 1).a : ℝ) + ((cStar 1).b : ℝ) * Real.sqrt 2) - 71 / 100| < 1 / 200 ∧
    |(((cStar 2).a : ℝ) + ((cStar 2).b : ℝ) * Real.sqrt 2) - 71 / 100| < 1 / 200 :=
  ⟨normalEq_unique hdet h1 h2,
   solver_normalEq method hdet,
   coefs_eq_cStar method,
   by
     show fourierBasisValues.mulVec (basisSmootherExampleCoefs method) = _
     rw [coefs_eq_cStar method, phi_mulVec_cStar],
   cStar_rounding.1,
   cStar_rounding.2.1,
   cStar_rounding.2.2⟩

/-- Claim C3, witness: the equivalence theorem applied to the concrete
docstring system with the cholesky method, discharging well-conditioning and
the normal-equation hypotheses at the exact coefficient vector. -/
theorem basis_smoother_equivalence_witness :
    cStar = cStar ∧
    NormalEq 1 0 fourierBasisValues dataY
      (solve_regularized_weighted_lstsq LstsqMethod.cholesky 1 0
        fourierBasisValues dataY) ∧
    basisSmootherExampleCoefs LstsqMethod.cholesky = cStar ∧
    basisSmootherExampleSmoothed LstsqMethod.cholesky = ![3, 3, 1, 1, 3] ∧
    (((cStar 0).a : ℝ) + ((cStar 0).b : ℝ) * Real.sqrt 2 = 2) ∧
    |(((cStar 1).a : ℝ) + ((cStar 1).b : ℝ) * Real.sqrt 2) - 71 / 100| < 1 / 200 ∧
    |(((cStar 2).a : ℝ) + ((cStar 2).b : ℝ) * Real.sqrt 2) - 71 / 100| < 1 / 200 :=
  basis_smoother_equivalence LstsqMethod.cholesky 1 0 fourierBasisValues dataY
    cStar cStar gram_example_isUnit cStar_normalEq cStar_normalEq

/-- Claim C5, witness: the wrapping property instantiated on the docstring
batch with a concrete metric. -/
theorem geometric_median_wrap_witness :
    (geometric_median_fd (fun _ _ => 1) exampleFD (1 / 1000) 5).grid_points
        = exampleFD.grid_points ∧
    (geometric_median_fd (fun _ _ => 1) exampleFD (1 / 1000) 5).data_matrix
      = [geometric_median (fun _ _ => 1) exampleFD.data_matrix (1 / 1000) 5
          (coordMean exampleFD.data_matrix)] ∧
    ∀ pair ∈ List.zip
        ((geometric_median_fd (fun _ _ => 1) exampleFD (1 / 1000) 5).data_matrix.head?.getD [])
        (geometric_median (fun _ _ => 1) exampleFD.data_matrix (1 / 1000) 5
          (coordMean exampleFD.data_matrix)),
      |pair.1 - pair.2| ≤ 1 / 10000 * |pair.2| :=
  geometric_median_wrap (fun _ _ => 1) exampleFD (1 / 1000) 5

end SkfdaSpec

